import Mathlib

/-!
A shallow embedding of `src/word_generator.py` (the newslang word generator).

Modelling conventions, applied uniformly:
* A Python string is a `List Char` (`Str`); `str` converts a Lean string
  literal.  Python's ASCII-oriented `str.lower()` is `pyLower` (per-character
  `Char.toLower`), `str.strip()` is `pyStrip` (whitespace trimmed at both
  ends).
* Every call to the process-wide random generator is replaced by an explicit
  nondeterministic choice parameter, one field per draw:
  `random.choice(xs)` becomes an arbitrary `Nat` index reduced mod the list
  length (`pickD`), `random.randint(-1, 1)` / `random.randint(-1, 0)` become
  `jitterPM1` / `jitterM10` of an arbitrary `Nat`, and `random.random() < p`
  (used only with `p` strictly between 0 and 1, namely 0.3, 0.6 and 0.7, so
  both outcomes are reachable) becomes an arbitrary `Bool`.  Universal
  theorems quantify over all choice structures; counterexamples pick one.
* Python `set` objects that are later iterated are modelled as duplicate-free
  lists in insertion order (`addSet`); every property proved or refuted below
  is insensitive to the iteration order of these sets.
* `get_related_words` queries WordNet, an external collaborator (spec section
  6); its return value is passed to `generate_new_words` as the `relatedPool`
  parameter and is otherwise unconstrained.
* The orchestrator's `except` handler around a strategy call (reached when
  `random.choice` is applied to an empty candidate list) turns the failed
  attempt into an empty candidate list, which is exactly what `continue`
  amounts to there.
-/

namespace WordGenerator

/-- Python strings as lists of characters. -/
abbrev Str := List Char

/-- A Lean string literal as a `Str`. -/
def str (s : String) : Str := s.toList

/-- `VOWELS = "aeiou"` from the source. -/
def VOWELS : Str := str "aeiou"

/-- `CONSONANTS = "bcdfghjklmnpqrstvwxyz"` from the source. -/
def CONSONANTS : Str := str "bcdfghjklmnpqrstvwxyz"

/-- Python `str.lower()` (ASCII case folding, per character). -/
def pyLower (s : Str) : Str := s.map Char.toLower

/-- Python `str.strip()`: whitespace removed from both ends. -/
def pyStrip (s : Str) : Str :=
  ((s.dropWhile Char.isWhitespace).reverse.dropWhile Char.isWhitespace).reverse

/-- Python `str.lstrip('-')`. -/
def lstripDash (s : Str) : Str := s.dropWhile (fun c => c == '-')

/-- Python `str.strip('-')`: hyphens removed from both ends. -/
def stripDash (s : Str) : Str :=
  ((s.dropWhile (fun c => c == '-')).reverse.dropWhile (fun c => c == '-')).reverse

/-- Python `s.startswith('-')`. -/
def startsDash (s : Str) : Bool := List.isPrefixOf (str "-") s

/-- `random.choice l` under choice value `n`: index `n` reduced mod the
length.  Call sites in the source only reach this on non-empty lists, where
the default `d` is unreachable. -/
def pickD {α : Type} (n : Nat) (l : List α) (d : α) : α := l.getD (n % l.length) d

/-- `set.add`: insertion-order list representation of a Python set. -/
def addSet (l : List Str) (x : Str) : List Str := if x ∈ l then l else l ++ [x]

/-- A sequence of `set.add` calls starting from the empty set: the
duplicate-free list of first occurrences, in insertion order. -/
def setOfList (l : List Str) : List Str := l.foldl addSet []

/-- `random.randint(-1, 1)` under choice value `n`. -/
def jitterPM1 (n : Nat) : Int := ((n % 3 : Nat) : Int) - 1

/-- `random.randint(-1, 0)` under choice value `n`. -/
def jitterM10 (n : Nat) : Int := ((n % 2 : Nat) : Int) - 1

/-- `max(1, len // 2 + jitter)`, the split point used by half/half blending. -/
def splitPoint (len : Nat) (j : Int) : Nat := (max 1 ((len : Int) / 2 + j)).toNat

/-- The descending scan of `find_longest_overlap`: try overlap length `k`,
`k - 1`, ..., `1`. -/
def overlapFrom (s1 s2 : Str) : Nat → Str
  | 0 => []
  | k + 1 =>
    if List.isSuffixOf (s2.take (k + 1)) s1 then s2.take (k + 1)
    else overlapFrom s1 s2 k

/-- `find_longest_overlap(s1, s2)`: the longest prefix of `s2` that is a
suffix of `s1` (empty when none). -/
def find_longest_overlap (s1 s2 : Str) : Str :=
  overlapFrom s1 s2 (min s1.length s2.length)

/-- The four `random.randint` draws inside `blend_words`. -/
structure BlendChoices where
  j1 : Nat
  j2 : Nat
  j3 : Nat
  j4 : Nat

/-- `blend_words(word1, word2)`: overlap blending plus half/half blending,
originals discarded, results of length > 3 kept. -/
def blend_words (w1 w2 : Str) (c : BlendChoices) : List Str :=
  let word1 := pyLower w1
  let word2 := pyLower w2
  let overlap12 := find_longest_overlap word1 word2
  let overlap21 := find_longest_overlap word2 word1
  let cands :=
    (if 2 ≤ overlap12.length then [word1 ++ word2.drop overlap12.length] else []) ++
    (if 2 ≤ overlap21.length then [word2 ++ word1.drop overlap21.length] else []) ++
    (if 1 < word1.length ∧ 1 < word2.length then
      [word1.take (splitPoint word1.length (jitterPM1 c.j1)) ++
         word2.drop (splitPoint word2.length (jitterM10 c.j2)),
       word2.take (splitPoint word2.length (jitterPM1 c.j4)) ++
         word1.drop (splitPoint word1.length (jitterM10 c.j3))]
     else [])
  let blends :=
    ((setOfList cands).filter (fun b => decide (b ≠ word1))).filter
      (fun b => decide (b ≠ word2))
  blends.filter (fun b => decide (3 < b.length))

/-- `COMMON_PREFIXES` from the source. -/
def COMMON_PREFIXES : List Str :=
  [str "re", str "un", str "in", str "im", str "pre", str "post", str "mis",
   str "dis", str "pro", str "anti", str "non"]

/-- `COMMON_SUFFIXES` from the source. -/
def COMMON_SUFFIXES : List Str :=
  [str "ing", str "ed", str "er", str "est", str "ly", str "able", str "ible",
   str "ness", str "ment", str "tion", str "sion", str "ify", str "ize"]

/-- `PLAYFUL_AFFIXES` from the source (hyphen-led entries act as suffixes). -/
def PLAYFUL_AFFIXES : List Str :=
  [str "mega", str "uber", str "hyper", str "giga",
   str "-tastic", str "-erific", str "-inator", str "-izzle", str "-core",
   str "-wave", str "-punk", str "-ish", str "-y",
   str "-o-rama", str "-apalooza", str "-erino", str "-arino", str "-zilla",
   str "-meister", str "-licious",
   str "-tude", str "-scape", str "-omatic"]

/-- Suffixes that elide a trailing `e` in `add_affixes`. -/
def ELIDING_SUFFIXES : List Str :=
  [str "ing", str "ed", str "able", str "ible", str "er", str "est",
   str "ish", str "y", str "ize"]

/-- Suffixes that trigger final-consonant doubling in `add_affixes`. -/
def DOUBLING_SUFFIXES : List Str := [str "ing", str "ed", str "er", str "est"]

/-- The random draws inside one `add_affixes` call: the two
`random.random() < playful_prob` coin flips and the `random.choice` indices
for each affix set. -/
structure AffixChoices where
  prePlayful : Bool
  prePlayfulIdx : Nat
  preCommonIdx : Nat
  sufPlayful : Bool
  sufPlayfulIdx : Nat
  sufCommonIdx : Nat

/-- `add_affixes(word, playful_prob)`: at most one prefix and one suffix added
independently, with e-elision and consonant-doubling rules on suffixation;
output filtered to `w != word and 3 < len(w) < 25`. -/
def add_affixes (w : Str) (c : AffixChoices) : List Str :=
  let word := pyLower w
  let playfulPres := PLAYFUL_AFFIXES.filter (fun pa => !(startsDash pa))
  let playfulSufs := PLAYFUL_AFFIXES.filter (fun pa => startsDash pa)
  let preAdd :=
    if 2 < word.length ∧
        ((COMMON_PREFIXES ++ playfulPres).any (fun p => List.isPrefixOf p word)) = false then
      if c.prePlayful ∧ playfulPres ≠ [] then
        [pickD c.prePlayfulIdx playfulPres [] ++ word]
      else
        [pickD c.preCommonIdx COMMON_PREFIXES [] ++ word]
    else []
  let sufAdd :=
    if 3 < word.length ∧
        ((COMMON_SUFFIXES ++ playfulSufs.map stripDash).any
          (fun s => List.isSuffixOf s word)) = false then
      let cand :=
        if c.sufPlayful ∧ playfulSufs ≠ [] then
          lstripDash (pickD c.sufPlayfulIdx playfulSufs [])
        else pickD c.sufCommonIdx COMMON_SUFFIXES []
      if cand ≠ [] then
        [if List.isSuffixOf (str "e") word ∧ cand ∈ ELIDING_SUFFIXES then
          word.dropLast ++ cand
         else if 1 < word.length ∧ word.getLastD ' ' ∈ CONSONANTS ∧
            word.getD (word.length - 2) ' ' ∈ VOWELS ∧ cand ∈ DOUBLING_SUFFIXES ∧
            word.getLastD ' ' ∉ str "wx" then
          word ++ [word.getLastD ' '] ++ cand
         else word ++ cand]
      else []
    else []
  ((setOfList (preAdd ++ sufAdd)).filter (fun x => decide (x ≠ word))).filter
    (fun x => decide (3 < x.length ∧ x.length < 25))

/-- `clip_word(word)`: keep the first 3 or 4 characters (`useThree` is the
`random.choice([3, 4])` draw); words of length <= 4 are not clipped. -/
def clip_word (w : Str) (useThree : Bool) : List Str :=
  let word := pyLower w
  if word.length ≤ 4 then []
  else
    let clipLen := if useThree then 3 else 4
    let clipped := word.take clipLen
    if clipped = word then [] else [clipped]

/-- The random draws of one iteration of `modify_word_phonetically`'s retry
loop: the `random.randrange(len(word))` position and the `random.choice`
replacement index, as functions of the iteration number. -/
structure ModChoices where
  pos : Nat → Nat
  rep : Nat → Nat

/-- The candidate replacement for `originalChar` in
`modify_word_phonetically`: a different vowel for a vowel, a different
consonant for a consonant, the character itself otherwise (in which case the
caller's inequality test fails and nothing is produced). -/
def replacementChar (originalChar : Char) (r : Nat) : Char :=
  if originalChar ∈ VOWELS then
    let possible := VOWELS.filter (fun v => decide (v ≠ originalChar))
    if possible ≠ [] then pickD r possible ' ' else originalChar
  else if originalChar ∈ CONSONANTS then
    let possible := CONSONANTS.filter (fun ch => decide (ch ≠ originalChar))
    if possible ≠ [] then pickD r possible ' ' else originalChar
  else originalChar

/-- One iteration of the retry loop in `modify_word_phonetically`. -/
def modifyStep (word : Str) (c : ModChoices) (i : Nat) (acc : List Str) : List Str :=
  let charIndex := c.pos i % word.length
  let originalChar := word.getD charIndex ' '
  let newChar := replacementChar originalChar (c.rep i)
  if newChar ≠ originalChar then
    let modified := word.set charIndex newChar
    if 2 < modified.length then addSet acc modified else acc
  else acc

/-- The `for _ in range(10)` retry loop of `modify_word_phonetically`,
breaking as soon as one modification has been collected
(`num_modifications_to_try = 1`). -/
def modifyLoop (word : Str) (c : ModChoices) : Nat → Nat → List Str → List Str
  | 0, _, acc => acc
  | fuel + 1, i, acc =>
    if 1 ≤ acc.length then acc
    else modifyLoop word c fuel (i + 1) (modifyStep word c i acc)

/-- `modify_word_phonetically(word)`: substitute one character by a different
character of the same class; words of length < 2 are rejected up front and
results must keep length > 2. -/
def modify_word_phonetically (w : Str) (c : ModChoices) : List Str :=
  let word := pyLower w
  if word.length < 2 then [] else modifyLoop word c 10 0 []

/-- The index of the last vowel of `word`, scanning from the end. -/
def lastVowelIdx (word : Str) : Option Nat :=
  (List.range word.length).reverse.find? (fun i => decide (word.getD i ' ' ∈ VOWELS))

/-- `_get_last_syllable_heuristic(word)` from the source: segment from the
last vowel, extended one position left when a consonant precedes it, with
short-segment fallbacks. -/
def _get_last_syllable_heuristic (word : Str) : Str :=
  if word.length < 2 then word
  else
    match lastVowelIdx word with
    | none => if 2 ≤ word.length then word.drop (word.length - 2) else word
    | some i =>
      let start := if 0 < i ∧ word.getD (i - 1) ' ' ∈ CONSONANTS then i - 1 else i
      let segment := word.drop start
      if segment.length < 2 ∧ 2 ≤ word.length then word.drop (word.length - 2)
      else if segment.length = 1 ∧ 3 ≤ word.length then word.drop (word.length - 3)
      else segment

/-- The three reduplication modes of `reduplicate_word`.  The Python function
raises `ValueError` on any other mode string; the inductive type makes that
branch unreachable. -/
inductive RedupMode where
  | suffix_partial
  | root_modified_playful
  | suffix_full
deriving DecidableEq

/-- A fixed enumeration of the lowercase ASCII alphabet,
`string.ascii_lowercase`. -/
def ASCII_LOWERCASE : Str := str "abcdefghijklmnopqrstuvwxyz"

/-- `reduplicate_word(word, mode)`.  `repIdx` is the `random.choice` draw used
only by the `root_modified_playful` mode; the default `suffix_partial` mode
draws no randomness. -/
def reduplicate_word (w : Str) (mode : RedupMode) (repIdx : Nat) : List Str :=
  let word := pyLower w
  if word.length < 3 then []
  else
    let rs : List Str :=
      match mode with
      | RedupMode.suffix_partial =>
        let seg := _get_last_syllable_heuristic word
        if seg ≠ [] ∧ 1 ≤ seg.length then
          let nw := word ++ seg
          if nw.length < 25 then [nw] else []
        else []
      | .root_modified_playful =>
        let lastChar := word.getLastD ' '
        let possible :=
          if lastChar ∈ VOWELS then VOWELS.filter (fun v => decide (v ≠ lastChar))
          else if lastChar ∈ CONSONANTS then
            CONSONANTS.filter (fun ch => decide (ch ≠ lastChar))
          else ASCII_LOWERCASE
        let nw :=
          if possible ≠ [] then word ++ [pickD repIdx possible ' ']
          else word ++ [pickD repIdx ASCII_LOWERCASE ' ']
        if nw.length < 25 then [nw] else []
      | .suffix_full =>
        if word.length ≤ 4 then
          let nw := word ++ word
          if nw.length < 25 then [nw] else []
        else []
    rs.filter (fun x => decide (x ≠ word))

/-- `PHONETIC_RESPELLING_RULES` from the source, as an association list. -/
def PHONETIC_RESPELLING_RULES : List (Str × Str) :=
  [(str "ing", str "in'"), (str "cool", str "kewl"),
   (str "you", str "u"), (str "your", str "ur")]

/-- The `-ing` suffix branch of `phonetic_respell` (requires word length > 4),
followed by the final `return []`. -/
def ingStep (wordLower : Str) : List Str :=
  if List.isSuffixOf (str "ing") wordLower ∧
      (PHONETIC_RESPELLING_RULES.any (fun r => r.1 == str "ing")) = true then
    if 4 < wordLower.length then
      let respelled := wordLower.take (wordLower.length - 3) ++ str "in'"
      if respelled ≠ wordLower then [respelled] else []
    else []
  else []

/-- `phonetic_respell(word)`: whole-word table lookup first, then the `-ing`
suffix rule; at most one rule applied, empty list when none applies. -/
def phonetic_respell (w : Str) : List Str :=
  let wordLower := pyLower w
  match PHONETIC_RESPELLING_RULES.find? (fun r => r.1 == wordLower) with
  | some r => if r.2 ≠ wordLower then [r.2] else ingStep wordLower
  | none => ingStep wordLower

/-- `QUIRKY_WORDS` from the source. -/
def QUIRKY_WORDS : List Str :=
  [str "kerfuffle", str "flummox", str "hullabaloo", str "bamboozle",
   str "gobbledygook", str "malarkey", str "wobegone", str "snollygoster",
   str "collywobbles", str "nincompoop", str "rambunctious", str "skulduggery",
   str "persnickety", str "codswallop", str "hornswoggle", str "cantankerous",
   str "lollygag", str "flibbertigibbet", str "whatchamacallit",
   str "thingamajig", str "doohickey", str "discombobulate", str "finagle",
   str "shenanigans", str "cattywampus", str "rigmarole"]

/-- All random draws of one `generate_wildcard_word` call, in source order:
word picks, blend jitters, the choice among blends, the two affix calls (made
with `playful_prob = 0.7`) and their result picks, the two phonetic
modification calls and their result picks. -/
structure WildChoices where
  kwIdx : Nat
  qIdx : Nat
  b1 : BlendChoices
  b2 : BlendChoices
  blendPick : Nat
  a1 : AffixChoices
  a2 : AffixChoices
  affixPick1 : Nat
  affixPick2 : Nat
  m1 : ModChoices
  m2 : ModChoices
  modPick1 : Nat
  modPick2 : Nat

/-- The body of `generate_wildcard_word` past its input guard, for chosen
keyword `k` and quirky word `q`: blend first (both directions), then
affixation of the keyword, affixation of the quirky word, phonetic
modification of each, and finally the crude concatenation
`keyword + quirky[:3]`.  Every branch of the Python function past the guard
returns a string, so the `some` wrapper is factored out into
`generate_wildcard_word`. -/
def wildcardCore (k q : Str) (c : WildChoices) : Str :=
  let blended := blend_words k q c.b1
  let blended := if blended = [] then blend_words q k c.b2 else blended
  if blended ≠ [] then pickD c.blendPick blended []
  else
    let affK := add_affixes k c.a1
    if affK ≠ [] then pickD c.affixPick1 affK []
    else
      let affQ := add_affixes q c.a2
      if affQ ≠ [] then pickD c.affixPick2 affQ []
      else
        let modQ := modify_word_phonetically q c.m1
        if modQ ≠ [] then pickD c.modPick1 modQ []
        else
          let modK := modify_word_phonetically k c.m2
          if modK ≠ [] then pickD c.modPick2 modK []
          else k ++ q.take 3

/-- `generate_wildcard_word(user_keywords, quirky_inspiration_list)`:
`None` exactly when one of the input lists is empty, otherwise the
`wildcardCore` combination of one randomly chosen keyword and one randomly
chosen quirky word. -/
def generate_wildcard_word (user_keywords quirky : List Str) (c : WildChoices) :
    Option Str :=
  if user_keywords = [] ∨ quirky = [] then none
  else some (wildcardCore (pickD c.kwIdx user_keywords []) (pickD c.qIdx quirky []) c)

/-- The six strategies sampled by the orchestrator loop, in source order. -/
inductive Strategy where
  | blend
  | affix
  | clip
  | modify
  | redup
  | respell
deriving DecidableEq

/-- The `strategies` list of `generate_new_words`. -/
def STRATEGIES : List Strategy :=
  [.blend, .affix, .clip, .modify, .redup, .respell]

/-- All random draws of one orchestrator loop iteration, in source order. -/
structure IterChoices where
  pairFlag : Bool
  sampleIdx1 : Nat
  sampleIdx2 : Nat
  baseIdx : Nat
  stratIdx : Nat
  tempIdx : Nat
  bc : BlendChoices
  ac : AffixChoices
  cc : Bool
  mc : ModChoices

/-- `random.sample(pool, 2)`: an ordered pair of entries at distinct
positions. -/
def sample2 (pool : List Str) (i1 i2 : Nat) : Str × Str :=
  let n := pool.length
  let a := i1 % n
  let b0 := i2 % (n - 1)
  let b := if a ≤ b0 then b0 + 1 else b0
  (pool.getD a [], pool.getD b [])

/-- `k.lower().strip()`, the normalized form of a keyword. -/
def normalize (k : Str) : Str := pyStrip (pyLower k)

/-- The single-base-word fallback of the blend strategy inside the
orchestrator loop.  An empty candidate list makes `random.choice` raise,
which the orchestrator's `except` turns into a skipped attempt, i.e. no
candidates. -/
def blendFallback (keywords pool : List Str) (base1 : Str) (c : IterChoices) :
    List Str :=
  if 2 ≤ pool.length then
    let cands := pool.filter (fun w => decide (w ≠ base1))
    if cands = [] then []
    else
      let t := pickD c.tempIdx cands []
      if t ≠ [] then blend_words base1 t c.bc else []
  else if keywords ≠ [] then
    let cands := keywords.filter (fun k2 => decide (normalize k2 ≠ base1))
    if cands = [] then []
    else
      let t := pickD c.tempIdx cands []
      if t ≠ [] then blend_words base1 (normalize t) c.bc else []
  else []

/-- The candidates produced by one orchestrator loop iteration: base word
selection, strategy selection, strategy invocation. -/
def iterPotentials (keywords pool : List Str) (c : IterChoices) : List Str :=
  let pair := 2 ≤ pool.length ∧ c.pairFlag = true
  let bases :=
    if pair then sample2 pool c.sampleIdx1 c.sampleIdx2
    else (pickD c.baseIdx pool [], [])
  let base1 := bases.1
  match pickD c.stratIdx STRATEGIES Strategy.blend with
  | .blend =>
    if pair ∧ bases.2 ≠ [] then blend_words base1 bases.2 c.bc
    else blendFallback keywords pool base1 c
  | .affix => add_affixes base1 c.ac
  | .clip => clip_word base1 c.cc
  | .modify => modify_word_phonetically base1 c.mc
  | .redup => reduplicate_word base1 RedupMode.suffix_partial 0
  | .respell => phonetic_respell base1

/-- The inner `for word in new_potentials` loop: quality filter, set insert,
break once the target is reached. -/
def absorb (keywords : List Str) (target : Nat) : List Str → List Str → List Str
  | acc, [] => acc
  | acc, w :: ws =>
    if w ≠ [] ∧ w ∉ keywords ∧ 2 < w.length ∧ w.length < 20 then
      let acc2 := addSet acc w
      if target ≤ acc2.length then acc2 else absorb keywords target acc2 ws
    else absorb keywords target acc ws

/-- The bounded sampling loop of `generate_new_words`.  Arguments: remaining
fuel (the attempt budget), the index of the next iteration's draws, the
accumulated set.  Returns the accumulated set and the number of attempts
consumed. -/
def genLoop (keywords pool : List Str) (target : Nat) (cs : Nat → IterChoices) :
    Nat → Nat → List Str → List Str × Nat
  | 0, _, acc => (acc, 0)
  | fuel + 1, k, acc =>
    if target ≤ acc.length then (acc, 0)
    else if pool = [] then (acc, 1)
    else
      let acc2 := absorb keywords target acc (iterPotentials keywords pool (cs k))
      let r := genLoop keywords pool target cs fuel (k + 1) acc2
      (r.1, r.2 + 1)

/-- One selection step of `random.shuffle`, modelled Fisher-Yates style: pick
the element at an arbitrary index, then shuffle the rest. -/
def shuffleGo (seed : Nat → Nat) : Nat → Nat → List Str → List Str
  | 0, _, l => l
  | fuel + 1, k, l =>
    if _h : l = [] then []
    else
      let i := seed k % l.length
      shuffleGo seed fuel (k + 1) (l.eraseIdx i) |>.cons (l.getD i [])

/-- `random.shuffle(l)` under the choice stream `seed`: some permutation of
`l`, the choice stream selecting which. -/
def pyShuffle (seed : Nat → Nat) (l : List Str) : List Str :=
  shuffleGo seed l.length 0 l

/-- The dictionary returned by `generate_new_words`. -/
structure GenResult where
  regular_words : List Str
  wildcard_word : Option Str
deriving DecidableEq

/-- All random draws of one `generate_new_words` call: the per-iteration loop
draws, the wildcard constructor's draws, the shuffle draws. -/
structure GenChoices where
  iter : Nat → IterChoices
  wild : WildChoices
  shuffleSeed : Nat → Nat

/-- The fallback base-word pool built from the keywords when the related-word
pool is empty: `[k.lower().strip() for k in keywords if k.strip() and
len(k) > 2]`. -/
def fallbackPool (keywords : List Str) : List Str :=
  (keywords.filter (fun k => decide (pyStrip k ≠ [] ∧ 2 < k.length))).map normalize

/-- `generate_new_words(keywords, num_to_generate)`.  `relatedPool` is the
value returned by the WordNet-backed `get_related_words(keywords, 30)`
(an external collaborator).  The source's lines 603-606 check whether the
wildcard collides with a generated regular word and then deliberately do
nothing (`pass`). -/
def generate_new_words (keywords : List Str) (num_to_generate : Int)
    (relatedPool : List Str) (c : GenChoices) : GenResult :=
  if keywords = [] ∨ num_to_generate ≤ 0 then ⟨[], none⟩
  else
    let pool := if relatedPool = [] then fallbackPool keywords else relatedPool
    if pool = [] then
      ⟨[], if 1 ≤ num_to_generate then
        generate_wildcard_word keywords QUIRKY_WORDS c.wild else none⟩
    else
      let target : Nat := if 1 ≤ num_to_generate then (num_to_generate - 1).toNat else 0
      let generated := (genLoop keywords pool target c.iter (target * 20 + 20) 0 []).1
      let wildcard :=
        if 1 ≤ num_to_generate then
          generate_wildcard_word keywords QUIRKY_WORDS c.wild else none
      ⟨(pyShuffle c.shuffleSeed generated).take target, wildcard⟩

/-- A string all of whose characters are fixed by ASCII case folding, i.e. a
lowercase string in Python's sense. -/
def LowerInvP (s : Str) : Prop := ∀ ch ∈ s, ch.toLower = ch

instance instDecLowerInvP (s : Str) : Decidable (LowerInvP s) :=
  decidable_of_iff (∀ ch ∈ s, ch.toLower = ch) Iff.rfl

/-- A zero/false valuation of the blend draws. -/
def zeroBlend : BlendChoices := ⟨0, 0, 0, 0⟩

/-- A zero/false valuation of the affix draws (common affix, index 0). -/
def zeroAffix : AffixChoices := ⟨false, 0, 0, false, 0, 0⟩

/-- A zero valuation of the phonetic-modification draws. -/
def zeroMod : ModChoices := ⟨fun _ => 0, fun _ => 0⟩

/-- A zero/false valuation of the wildcard constructor's draws. -/
def zeroWild : WildChoices :=
  ⟨0, 0, zeroBlend, zeroBlend, 0, zeroAffix, zeroAffix, 0, 0, zeroMod, zeroMod, 0, 0⟩

/-- A zero/false valuation of one loop iteration's draws. -/
def zeroIter : IterChoices :=
  ⟨false, 0, 0, 0, 0, 0, zeroBlend, zeroAffix, false, zeroMod⟩

/-- A zero/false valuation of a whole `generate_new_words` call's draws. -/
def zeroChoices : GenChoices := ⟨fun _ => zeroIter, zeroWild, fun _ => 0⟩

/-- Iteration draws that always select the clip strategy (index 2) with clip
length 3. -/
def clipIter : IterChoices := { zeroIter with stratIdx := 2, cc := true }

/-- Draws for the run refuting C3: every iteration clips, the wildcard draws
are irrelevant. -/
def catChoices : GenChoices := ⟨fun _ => clipIter, zeroWild, fun _ => 0⟩

/-- Iteration draws that always select the phonetic-modification strategy
(index 3), changing position 6 to the replacement at index 2. -/
def modIter : IterChoices :=
  { zeroIter with stratIdx := 3, mc := ⟨fun _ => 6, fun _ => 2⟩ }

/-- Wildcard draws picking keyword 0 and quirky word 3 (`bamboozle`), and the
first blend. -/
def tubaWild : WildChoices := { zeroWild with qIdx := 3 }

/-- Draws for the run refuting C2. -/
def tubaChoices : GenChoices := ⟨fun _ => modIter, tubaWild, fun _ => 0⟩

/-- Wildcard draws picking keyword 1 and quirky word 21 (`discombobulate`),
with the common suffix at index 0 (`ing`). -/
def discoWild : WildChoices := { zeroWild with kwIdx := 1, qIdx := 21 }

/-- Draws for the run refuting C5. -/
def discoChoices : GenChoices := ⟨fun _ => zeroIter, discoWild, fun _ => 0⟩

/-! Helper lemmas. -/

theorem toNat_ofNat_valid (n : Nat) (h : n.isValidChar) : (Char.ofNat n).toNat = n := by
  rw [Char.ofNat, dif_pos h]
  rfl

theorem toLower_toLower (ch : Char) : ch.toLower.toLower = ch.toLower := by
  simp only [Char.toLower]
  by_cases h : ch.toNat ≥ 65 ∧ ch.toNat ≤ 90
  · rw [if_pos h]
    have hv : (ch.toNat + 32).isValidChar := Or.inl (by omega)
    rw [toNat_ofNat_valid _ hv, if_neg (by omega)]
  · rw [if_neg h, if_neg h]

theorem lowerInvP_pyLower (s : Str) : LowerInvP (pyLower s) := by
  intro ch hch
  rcases List.mem_map.mp hch with ⟨d, _, rfl⟩
  exact toLower_toLower d

theorem pyLower_eq_self_of_lowerInvP {s : Str} (h : LowerInvP s) : pyLower s = s := by
  induction s with
  | nil => rfl
  | cons a t ih =>
    have ha := h a (List.mem_cons_self a t)
    have ht : LowerInvP t := fun ch hch => h ch (List.mem_cons_of_mem a hch)
    simp [pyLower] at ih ⊢
    exact ⟨ha, ih ht⟩

theorem lowerInvP_of_subset {s t : Str} (h : LowerInvP t) (hsub : s ⊆ t) : LowerInvP s :=
  fun ch hch => h ch (hsub hch)

theorem lowerInvP_append {s t : Str} (hs : LowerInvP s) (ht : LowerInvP t) :
    LowerInvP (s ++ t) := by
  intro ch hch
  rcases List.mem_append.mp hch with h | h
  · exact hs ch h
  · exact ht ch h

/-- Membership in the set model: an element of `addSet l x` is in `l` or is
`x`. -/
theorem mem_addSet {l : List Str} {x y : Str} (h : y ∈ addSet l x) : y ∈ l ∨ y = x := by
  unfold addSet at h
  split at h
  · exact Or.inl h
  · rcases List.mem_append.mp h with h | h
    · exact Or.inl h
    · exact Or.inr (List.mem_singleton.mp h)

theorem nodup_addSet {l : List Str} {x : Str} (h : l.Nodup) : (addSet l x).Nodup := by
  unfold addSet
  split
  · exact h
  · next hx => simpa [List.nodup_append, h] using hx

theorem mem_of_mem_setOfList {l : List Str} {y : Str} (h : y ∈ setOfList l) : y ∈ l := by
  unfold setOfList at h
  suffices H : ∀ (l : List Str) (acc : List Str), y ∈ l.foldl addSet acc → y ∈ acc ∨ y ∈ l by
    rcases H l [] h with h | h
    · cases h
    · exact h
  intro l
  induction l with
  | nil => intro acc h; exact Or.inl h
  | cons a t ih =>
    intro acc h
    rcases ih (addSet acc a) h with h | h
    · rcases mem_addSet h with h | h
      · exact Or.inl h
      · exact Or.inr (by simp [h])
    · exact Or.inr (List.mem_cons_of_mem a h)

theorem nodup_setOfList (l : List Str) : (setOfList l).Nodup := by
  unfold setOfList
  suffices H : ∀ (l : List Str) (acc : List Str), acc.Nodup → (l.foldl addSet acc).Nodup by
    exact H l [] List.nodup_nil
  intro l
  induction l with
  | nil => intro acc h; exact h
  | cons a t ih => intro acc h; exact ih (addSet acc a) (nodup_addSet h)

theorem pickD_mem {α : Type} {l : List α} (n : Nat) (d : α) (h : l ≠ []) :
    pickD n l d ∈ l := by
  unfold pickD
  have hl : 0 < l.length := List.length_pos.mpr h
  have hlt : n % l.length < l.length := Nat.mod_lt _ hl
  rw [List.getD_eq_getElem l d hlt]
  exact List.getElem_mem hlt

/-- The attempt counter of the sampling loop never exceeds the fuel. -/
theorem genLoop_attempts_le (keywords pool : List Str) (target : Nat)
    (cs : Nat → IterChoices) :
    ∀ fuel k acc, (genLoop keywords pool target cs fuel k acc).2 ≤ fuel := by
  intro fuel
  induction fuel with
  | zero => intro k acc; simp [genLoop]
  | succ f ih =>
    intro k acc
    simp only [genLoop]
    split
    · simp
    · split
      · simp
      · simpa using Nat.succ_le_succ (ih (k + 1) _)

/-- Once the target is met, the loop consumes no attempt and returns the
accumulated set unchanged. -/
theorem genLoop_stop (keywords pool : List Str) (target : Nat)
    (cs : Nat → IterChoices) (fuel k : Nat) (acc : List Str)
    (h : target ≤ acc.length) :
    genLoop keywords pool target cs fuel k acc = (acc, 0) := by
  cases fuel with
  | zero => simp [genLoop]
  | succ f => simp [genLoop, if_pos h]

/-! Claim C4. -/

/-- C4: with an empty keyword list or a non-positive requested count,
`generate_new_words` returns the empty result `{regular_words: [],
wildcard_word: None}` (the embedding is a total function, so no exception is
possible on this path). -/
theorem C4_degenerate (keywords : List Str) (n : Int) (relatedPool : List Str)
    (c : GenChoices) (h : keywords = [] ∨ n ≤ 0) :
    generate_new_words keywords n relatedPool c = ⟨[], none⟩ := by
  unfold generate_new_words
  rw [if_pos h]

/-- C4 witness: the degenerate guard at the concrete input `(["test"], 0)`. -/
theorem C4_degenerate_witness :
    generate_new_words [str "test"] 0 [] zeroChoices = ⟨[], none⟩ :=
  C4_degenerate [str "test"] 0 [] zeroChoices (Or.inr (by decide))

/-! Claim C1. -/

/-- C1 counterexample: at requested count `-1` (a value the spec's own error
taxonomy admits) the result is empty, so
`len(regular_words) + (1 if wildcard_word else 0) = 0`, which is not
`≤ requested_count = -1`: the third inequality of the claim fails for
negative counts. -/
theorem C1_cex :
    ¬ (((generate_new_words [str "test"] (-1) [] zeroChoices).regular_words.length : Int) +
        (if (generate_new_words [str "test"] (-1) [] zeroChoices).wildcard_word.isSome
          then 1 else 0) ≤ (-1 : Int)) := by
  decide

/-- In the non-degenerate case the regular-word list is the truncation of the
shuffled accumulated set, so its length is at most `(n - 1).toNat`. -/
theorem gnw_regular_len_le (keywords : List Str) (n : Int) (relatedPool : List Str)
    (c : GenChoices) (h1 : keywords ≠ []) (hn : 1 ≤ n) :
    (generate_new_words keywords n relatedPool c).regular_words.length ≤ (n - 1).toNat := by
  have h0 : ¬ (keywords = [] ∨ n ≤ 0) := by
    push_neg
    exact ⟨h1, by omega⟩
  simp only [generate_new_words, if_neg h0, if_pos hn]
  split
  · split
    · simp
    · dsimp only
      rw [List.length_take]
      omega
  · dsimp only
    rw [List.length_take]
    omega

/-- In the non-degenerate case the wildcard slot holds exactly the wildcard
constructor's output, with no further validation. -/
theorem gnw_wildcard_eq (keywords : List Str) (n : Int) (relatedPool : List Str)
    (c : GenChoices) (h1 : keywords ≠ []) (hn : 1 ≤ n) :
    (generate_new_words keywords n relatedPool c).wildcard_word =
      generate_wildcard_word keywords QUIRKY_WORDS c.wild := by
  have h0 : ¬ (keywords = [] ∨ n ≤ 0) := by
    push_neg
    exact ⟨h1, by omega⟩
  simp only [generate_new_words, if_neg h0, if_pos hn]
  split
  · split <;> rfl
  · rfl

/-- C1 (amended): `len(regular_words) ≤ max(n - 1, 0)` always, the wildcard
is set only when `n ≥ 1`, and `len(regular_words) + (1 if wildcard_word else
0) ≤ max(n, 0)` (the original bound `≤ n` holds for every `n ≥ 0` but fails
for negative `n`, where the result is empty). -/
theorem C1_bounds (keywords : List Str) (n : Int) (relatedPool : List Str)
    (c : GenChoices) :
    ((generate_new_words keywords n relatedPool c).regular_words.length : Int)
        ≤ max (n - 1) 0 ∧
    ((generate_new_words keywords n relatedPool c).wildcard_word.isSome = true → 1 ≤ n) ∧
    ((generate_new_words keywords n relatedPool c).regular_words.length : Int) +
        (if (generate_new_words keywords n relatedPool c).wildcard_word.isSome
          then 1 else 0) ≤ max n 0 := by
  by_cases h0 : keywords = [] ∨ n ≤ 0
  · rw [generate_new_words, if_pos h0]
    refine ⟨by simp, by simp, by simp⟩
  · push_neg at h0
    have hn : 1 ≤ n := by omega
    have hlen := gnw_regular_len_le keywords n relatedPool c h0.1 hn
    have hcast : (((n - 1).toNat : Int)) = n - 1 := Int.toNat_of_nonneg (by omega)
    have hc : ((generate_new_words keywords n relatedPool c).regular_words.length : Int)
        ≤ n - 1 := by
      rw [← hcast]
      exact_mod_cast hlen
    have hml : n - 1 ≤ max (n - 1) 0 := le_max_left _ _
    have hmn : n ≤ max n 0 := le_max_left _ _
    refine ⟨hc.trans hml, fun _ => hn, ?_⟩
    split <;> omega

/-! Claim C6. -/

/-- C6 counterexample: keyword `"abc"` with an empty related pool, requested
count 2 (so the wildcard-adjusted remaining count is 1), and draws that
always select the clip strategy (which rejects the length-3 base word): the
loop runs all `1 * 20 + 20 = 40` attempts, exceeding the claimed budget of
`remaining * 20 = 20`. -/
theorem C6_cex :
    (genLoop [str "abc"] [str "abc"] 1 (fun _ => clipIter) (1 * 20 + 20) 0 []).2 = 40 ∧
    ¬ (40 ≤ 1 * 20) := by
  decide

/-- C6 (amended): the sampling loop executes at most `remaining * 20 + 20`
iterations (the source adds a constant 20 to the claimed budget
`remaining * 20`), and it stops without consuming an attempt as soon as
`remaining` unique words are accumulated. -/
theorem C6_budget (keywords pool : List Str) (target k : Nat)
    (cs : Nat → IterChoices) (acc : List Str) :
    (genLoop keywords pool target cs (target * 20 + 20) k acc).2 ≤ target * 20 + 20 ∧
    (target ≤ acc.length →
      genLoop keywords pool target cs (target * 20 + 20) k acc = (acc, 0)) :=
  ⟨genLoop_attempts_le keywords pool target cs _ k acc,
   fun h => genLoop_stop keywords pool target cs _ k acc h⟩

/-! Claim C7. -/

/-- C7: evaluation of the code at the claim's own examples.  The source's
segment heuristic extends the segment to the consonant before the last vowel,
so `reduplicate_word "wonder"` yields `["wonderder"]` — not the
`["wonderer"]` required by the claim and by the repository's own test
(`test_word_generator.py`, `test_reduplicate_word`) — and
`reduplicate_word "cat"` yields `["catcat"]`, not `["catat"]`. -/
theorem C7_code_eval :
    reduplicate_word (str "wonder") RedupMode.suffix_partial 0 = [str "wonderder"] ∧
    reduplicate_word (str "cat") RedupMode.suffix_partial 0 = [str "catcat"] := by
  decide

/-! Claim C5. -/

/-- C5 counterexample: with keywords `["discombobulating", "a"]` and count 1,
draws that pick the keyword `"a"` and the quirky word `"discombobulate"`
make every blend fail and the affixation fallback produce
`"discombobulate" + "ing"` (after e-elision) — and the orchestrator installs
`"discombobulating"` as the wildcard even though it equals a keyword
(case-insensitively and even literally), because it performs none of the
claimed validation. -/
theorem C5_cex :
    (generate_new_words [str "discombobulating", str "a"] 1 [] discoChoices).wildcard_word
      = some (str "discombobulating") ∧
    str "discombobulating" ∈ [str "discombobulating", str "a"] := by
  decide

/-- C5 (amended): for a non-empty keyword list and requested count `n ≥ 1`
the orchestrator invokes the Wildcard Constructor once and installs its
result as `wildcard_word` unconditionally — there is no non-emptiness,
keyword-equality or minimum-length check — and one unit of the requested
count is always reserved for the wildcard slot (the regular-word list never
exceeds `n - 1` entries). -/
theorem C5_wildcard_unvalidated (keywords : List Str) (n : Int)
    (relatedPool : List Str) (c : GenChoices) (h1 : keywords ≠ []) (hn : 1 ≤ n) :
    (generate_new_words keywords n relatedPool c).wildcard_word =
      generate_wildcard_word keywords QUIRKY_WORDS c.wild ∧
    (generate_new_words keywords n relatedPool c).regular_words.length ≤ (n - 1).toNat :=
  ⟨gnw_wildcard_eq keywords n relatedPool c h1 hn,
   gnw_regular_len_le keywords n relatedPool c h1 hn⟩

/-- C5 witness: the amended statement at the concrete input
`(["tuba"], 2)`. -/
theorem C5_wildcard_unvalidated_witness :
    (generate_new_words [str "tuba"] 2 [] zeroChoices).wildcard_word =
      generate_wildcard_word [str "tuba"] QUIRKY_WORDS zeroChoices.wild ∧
    (generate_new_words [str "tuba"] 2 [] zeroChoices).regular_words.length
      ≤ ((2 : Int) - 1).toNat :=
  C5_wildcard_unvalidated [str "tuba"] 2 [] zeroChoices (by decide) (by decide)

/-! Claim C10. -/

/-- C10: with non-empty keyword and quirky lists the wildcard constructor
always returns a string (never `none`); and when the two blends, the two
affixation fallbacks and the two phonetic modifications all come back empty,
the result is the chosen keyword concatenated with the first three characters
of the chosen quirky word. -/
theorem C10_wildcard_total (kws quirky : List Str) (c : WildChoices)
    (h1 : kws ≠ []) (h2 : quirky ≠ []) :
    (∃ w, generate_wildcard_word kws quirky c = some w) ∧
    (blend_words (pickD c.kwIdx kws []) (pickD c.qIdx quirky []) c.b1 = [] →
      blend_words (pickD c.qIdx quirky []) (pickD c.kwIdx kws []) c.b2 = [] →
      add_affixes (pickD c.kwIdx kws []) c.a1 = [] →
      add_affixes (pickD c.qIdx quirky []) c.a2 = [] →
      modify_word_phonetically (pickD c.qIdx quirky []) c.m1 = [] →
      modify_word_phonetically (pickD c.kwIdx kws []) c.m2 = [] →
      generate_wildcard_word kws quirky c =
        some (pickD c.kwIdx kws [] ++ (pickD c.qIdx quirky []).take 3)) := by
  have h0 : ¬ (kws = [] ∨ quirky = []) := by
    push_neg
    exact ⟨h1, h2⟩
  constructor
  · exact ⟨_, by rw [generate_wildcard_word, if_neg h0]⟩
  · intro hb1 hb2 ha1 ha2 hm1 hm2
    rw [generate_wildcard_word, if_neg h0]
    have hcore : wildcardCore (pickD c.kwIdx kws []) (pickD c.qIdx quirky []) c =
        pickD c.kwIdx kws [] ++ (pickD c.qIdx quirky []).take 3 := by
      simp only [wildcardCore, hb1, hb2, ha1, ha2, hm1, hm2]
      simp
    rw [hcore]

/-- C10 witness: at keywords `["a"]` and quirky list `["di"]` every
intermediate strategy is empty and the crude concatenation `"adi"` is
returned; in particular the result is non-`none`. -/
theorem C10_wildcard_total_witness :
    ∃ w, generate_wildcard_word [str "a"] [str "di"] zeroWild = some w :=
  (C10_wildcard_total [str "a"] [str "di"] zeroWild (by decide) (by decide)).1

/-! Claim C9. -/

/-- C9 counterexample: `"sing"` is longer than 3 characters and ends in
`"ing"`, yet `phonetic_respell` returns `[]` (the code requires length > 4),
in agreement with the repository's own test, which asserts
`phonetic_respell("sing") == []`. -/
theorem C9_cex :
    phonetic_respell (str "sing") = [] ∧
    List.isSuffixOf (str "ing") (str "sing") = true ∧
    3 < (str "sing").length := by
  decide

theorem respell_ing (w : Str) (h4 : 4 < (pyLower w).length)
    (hsuf : List.isSuffixOf (str "ing") (pyLower w) = true) :
    phonetic_respell w = [(pyLower w).take ((pyLower w).length - 3) ++ str "in'"] := by
  have hfind : PHONETIC_RESPELLING_RULES.find? (fun r => r.1 == pyLower w) = none := by
    rw [List.find?_eq_none]
    intro r hr hbeq
    have heq : r.1 = pyLower w := by simpa using hbeq
    have hlen : r.1.length = (pyLower w).length := congrArg List.length heq
    fin_cases hr <;> simp [str] at hlen <;> omega
  have hne : (pyLower w).take ((pyLower w).length - 3) ++ str "in'" ≠ pyLower w := by
    intro heq
    obtain ⟨t, ht⟩ := List.isSuffixOf_iff_suffix.mp hsuf
    have h1 : ((pyLower w).take ((pyLower w).length - 3) ++ str "in'").getLast?
        = some '\'' := by
      rw [List.getLast?_append]
      rfl
    have h2 : (pyLower w).getLast? = some 'g' := by
      rw [← ht, List.getLast?_append]
      rfl
    rw [heq, h2] at h1
    exact absurd h1 (by decide)
  simp only [phonetic_respell, hfind]
  rw [ingStep, if_pos ⟨hsuf, by decide⟩, if_pos h4, if_pos hne]

/-- C9 (amended): the trailing `-ing` rewrite applies to words LONGER THAN 4
characters (not 3): for every such word ending in `"ing"` the result is the
word with its last three characters replaced by `"in'"`; and
`Respell("running") = ["runnin'"]`, `Respell("cool") = ["kewl"]`,
`Respell("apple") = []` as claimed. -/
theorem C9_respell :
    (∀ w : Str, 4 < (pyLower w).length →
      List.isSuffixOf (str "ing") (pyLower w) = true →
      phonetic_respell w = [(pyLower w).take ((pyLower w).length - 3) ++ str "in'"]) ∧
    phonetic_respell (str "running") = [str "runnin'"] ∧
    phonetic_respell (str "cool") = [str "kewl"] ∧
    phonetic_respell (str "apple") = [] :=
  ⟨respell_ing, by decide, by decide, by decide⟩

/-! Claim C8. -/

theorem replacementChar_spec (o : Char) (r : Nat) (h : replacementChar o r ≠ o) :
    (replacementChar o r ∈ VOWELS ∧ o ∈ VOWELS) ∨
    (replacementChar o r ∈ CONSONANTS ∧ o ∈ CONSONANTS) := by
  by_cases hv : o ∈ VOWELS
  · left
    refine ⟨?_, hv⟩
    rw [replacementChar, if_pos hv] at h ⊢
    by_cases hp : VOWELS.filter (fun v => decide (v ≠ o)) ≠ []
    · rw [if_pos hp] at h ⊢
      exact List.mem_of_mem_filter (pickD_mem _ _ hp)
    · rw [if_neg hp] at h
      exact absurd rfl h
  · by_cases hc : o ∈ CONSONANTS
    · right
      refine ⟨?_, hc⟩
      rw [replacementChar, if_neg hv, if_pos hc] at h ⊢
      by_cases hp : CONSONANTS.filter (fun ch => decide (ch ≠ o)) ≠ []
      · rw [if_pos hp] at h ⊢
        exact List.mem_of_mem_filter (pickD_mem _ _ hp)
      · rw [if_neg hp] at h
        exact absurd rfl h
    · rw [replacementChar, if_neg hv, if_neg hc] at h
      exact absurd rfl h

theorem modifyStep_eq_of_short (word : Str) (c : ModChoices) (i : Nat)
    (acc : List Str) (h : word.length ≤ 2) : modifyStep word c i acc = acc := by
  simp only [modifyStep]
  split
  · split
    · next h2 =>
        rw [List.length_set] at h2
        omega
    · rfl
  · rfl

theorem modifyStep_nil_len (word : Str) (c : ModChoices) (i : Nat) :
    (modifyStep word c i []).length ≤ 1 := by
  simp only [modifyStep]
  split
  · split
    · simp [addSet]
    · simp
  · simp

theorem modifyStep_mem (word : Str) (c : ModChoices) (i : Nat) (acc : List Str)
    (hw : 0 < word.length) (out : Str) (h : out ∈ modifyStep word c i acc) :
    out ∈ acc ∨
    ∃ j ch, j < word.length ∧ out = word.set j ch ∧ ch ≠ word.getD j ' ' ∧
      ((ch ∈ VOWELS ∧ word.getD j ' ' ∈ VOWELS) ∨
       (ch ∈ CONSONANTS ∧ word.getD j ' ' ∈ CONSONANTS)) := by
  simp only [modifyStep] at h
  split at h
  · next hne =>
      split at h
      · rcases mem_addSet h with h | h
        · exact Or.inl h
        · refine Or.inr ⟨c.pos i % word.length, replacementChar
            (word.getD (c.pos i % word.length) ' ') (c.rep i),
            Nat.mod_lt _ hw, h, hne, replacementChar_spec _ _ hne⟩
      · exact Or.inl h
  · exact Or.inl h

theorem modifyLoop_len (word : Str) (c : ModChoices) :
    ∀ fuel i acc, acc.length ≤ 1 → (modifyLoop word c fuel i acc).length ≤ 1 := by
  intro fuel
  induction fuel with
  | zero => intro i acc h; exact h
  | succ f ih =>
    intro i acc h
    rw [modifyLoop]
    split
    · exact h
    · next hlt =>
        have hz : acc.length = 0 := by omega
        rw [List.length_eq_zero.mp hz]
        exact ih (i + 1) _ (modifyStep_nil_len word c i)

theorem modifyLoop_nil_of_short (word : Str) (c : ModChoices)
    (h : word.length ≤ 2) : ∀ fuel i, modifyLoop word c fuel i [] = [] := by
  intro fuel
  induction fuel with
  | zero => intro i; rfl
  | succ f ih =>
    intro i
    rw [modifyLoop]
    split
    · rfl
    · rw [modifyStep_eq_of_short word c i [] h]
      exact ih (i + 1)

theorem modifyLoop_mem (word : Str) (c : ModChoices) (hw : 0 < word.length) :
    ∀ fuel i acc out, out ∈ modifyLoop word c fuel i acc →
    out ∈ acc ∨
    ∃ j ch, j < word.length ∧ out = word.set j ch ∧ ch ≠ word.getD j ' ' ∧
      ((ch ∈ VOWELS ∧ word.getD j ' ' ∈ VOWELS) ∨
       (ch ∈ CONSONANTS ∧ word.getD j ' ' ∈ CONSONANTS)) := by
  intro fuel
  induction fuel with
  | zero => intro i acc out h; exact Or.inl h
  | succ f ih =>
    intro i acc out h
    rw [modifyLoop] at h
    split at h
    · exact Or.inl h
    · rcases ih (i + 1) _ out h with h' | h'
      · exact modifyStep_mem word c i acc hw out h'
      · exact Or.inr h'

/-- C8 counterexample: on `"aaeb"`, choice draws that select the `'e'` at
position 2 and replace it by `'a'` produce the single result `"aaab"`, which
contains a run of three identical vowels: the code applies no
pronounceability check. -/
theorem C8_cex :
    modify_word_phonetically (str "aaeb") ⟨fun _ => 2, fun _ => 0⟩ = [str "aaab"] ∧
    List.IsInfix (str "aaa") (str "aaab") ∧ 'a' ∈ VOWELS := by
  refine ⟨by decide, ⟨[], str "b", by decide⟩, by decide⟩

/-- Every element a modification step can return: either it was already
accumulated, or it is a one-character same-class substitution. -/
theorem modify_mem_spec (w : Str) (c : ModChoices) (out : Str)
    (hout : out ∈ modify_word_phonetically w c) :
    ∃ j ch, j < (pyLower w).length ∧ out = (pyLower w).set j ch ∧
      ch ≠ (pyLower w).getD j ' ' ∧
      ((ch ∈ VOWELS ∧ (pyLower w).getD j ' ' ∈ VOWELS) ∨
       (ch ∈ CONSONANTS ∧ (pyLower w).getD j ' ' ∈ CONSONANTS)) := by
  rw [modify_word_phonetically] at hout
  split at hout
  · cases hout
  · next hg =>
      rcases modifyLoop_mem (pyLower w) c (by omega) 10 0 [] out hout with h | h
      · cases h
      · exact h

/-- C8 (amended): `modify_word_phonetically` returns at most one result, each
result substitutes exactly one character by a different character of the same
class (vowel for vowel, consonant for consonant), and words of length < 3
yield no result; the code applies NO pronounceability check, so a result may
contain a run of three identical vowels or consonants (see the
counterexample). -/
theorem C8_modify (w : Str) (c : ModChoices) :
    (modify_word_phonetically w c).length ≤ 1 ∧
    (w.length < 3 → modify_word_phonetically w c = []) ∧
    (∀ out ∈ modify_word_phonetically w c, ∃ j ch,
      j < (pyLower w).length ∧ out = (pyLower w).set j ch ∧
      ch ≠ (pyLower w).getD j ' ' ∧
      ((ch ∈ VOWELS ∧ (pyLower w).getD j ' ' ∈ VOWELS) ∨
       (ch ∈ CONSONANTS ∧ (pyLower w).getD j ' ' ∈ CONSONANTS))) := by
  have hlen : (pyLower w).length = w.length := List.length_map w Char.toLower
  refine ⟨?_, ?_, ?_⟩
  · rw [modify_word_phonetically]
    split
    · simp
    · exact modifyLoop_len (pyLower w) c 10 0 [] (by simp)
  · intro h3
    rw [modify_word_phonetically]
    split
    · rfl
    · next hg =>
        exact modifyLoop_nil_of_short (pyLower w) c (by omega) 10 0
  · intro out hout
    exact modify_mem_spec w c out hout

/-! Claim C2. -/

/-- C2 counterexample: keyword `"tuba"` with related pool `["tubambiozle"]`
and count 2.  The loop's phonetic modification turns `"tubambiozle"` into the
regular word `"tubamboozle"`, and the wildcard constructor blends `"tuba"`
with the quirky word `"bamboozle"` (overlap `"ba"`) into the very same string
`"tubamboozle"`; the orchestrator's collision check is an explicit `pass`, so
the wildcard equals an element of `regular_words`. -/
theorem C2_cex :
    (generate_new_words [str "tuba"] 2 [str "tubambiozle"] tubaChoices).wildcard_word
      = some (str "tubamboozle") ∧
    str "tubamboozle" ∈
      (generate_new_words [str "tuba"] 2 [str "tubambiozle"] tubaChoices).regular_words := by
  decide

theorem perm_getElem_cons_eraseIdx :
    ∀ (l : List Str) (i : Nat) (h : i < l.length), l.Perm (l[i] :: l.eraseIdx i) := by
  intro l
  induction l with
  | nil => intro i h; simp at h
  | cons a t ih =>
    intro i h
    cases i with
    | zero => simp
    | succ j =>
      have hj : j < t.length := by simpa using h
      have hstep := (ih j hj).cons a
      have hswap : (a :: t[j] :: t.eraseIdx j).Perm (t[j] :: a :: t.eraseIdx j) :=
        List.Perm.swap _ _ _
      simpa using hstep.trans hswap

theorem shuffleGo_perm (seed : Nat → Nat) :
    ∀ fuel k l, (shuffleGo seed fuel k l).Perm l := by
  intro fuel
  induction fuel with
  | zero => intro k l; simp [shuffleGo]
  | succ f ih =>
    intro k l
    rw [shuffleGo]
    split
    · next h => simp [h]
    · next h =>
      have hpos : 0 < l.length := List.length_pos.mpr h
      have hlt : seed k % l.length < l.length := Nat.mod_lt _ hpos
      have h1 : (shuffleGo seed f (k + 1) (l.eraseIdx (seed k % l.length))).Perm
          (l.eraseIdx (seed k % l.length)) := ih (k + 1) _
      have hgd : l.getD (seed k % l.length) [] = l[seed k % l.length] := by
        rw [List.getD_eq_getElem l [] hlt]
      have h2 := perm_getElem_cons_eraseIdx l _ hlt
      dsimp only
      rw [hgd]
      exact (h1.cons _).trans h2.symm

theorem pyShuffle_perm (seed : Nat → Nat) (l : List Str) : (pyShuffle seed l).Perm l :=
  shuffleGo_perm seed l.length 0 l

theorem absorb_nodup (kws : List Str) (target : Nat) :
    ∀ pots acc, acc.Nodup → (absorb kws target acc pots).Nodup := by
  intro pots
  induction pots with
  | nil => intro acc h; exact h
  | cons w ws ih =>
    intro acc h
    rw [absorb]
    split
    · dsimp only
      split
      · exact nodup_addSet h
      · exact ih _ (nodup_addSet h)
    · exact ih _ h

theorem genLoop_nodup (keywords pool : List Str) (target : Nat)
    (cs : Nat → IterChoices) :
    ∀ fuel k acc, acc.Nodup → (genLoop keywords pool target cs fuel k acc).1.Nodup := by
  intro fuel
  induction fuel with
  | zero => intro k acc h; exact h
  | succ f ih =>
    intro k acc h
    rw [genLoop]
    split
    · exact h
    · split
      · exact h
      · exact ih (k + 1) _ (absorb_nodup keywords target _ _ h)

/-- Truncating a shuffle of a duplicate-free list is duplicate-free. -/
theorem take_shuffle_nodup (seed : Nat → Nat) (t : Nat) (g : List Str)
    (hg : g.Nodup) : (List.take t (pyShuffle seed g)).Nodup :=
  (List.take_sublist t _).nodup ((pyShuffle_perm seed g).nodup_iff.mpr hg)

/-- Both results the non-degenerate branch of `generate_new_words` can build
have duplicate-free regular words. -/
theorem nodup_result_ite (COND : Prop) [Decidable COND] (X Y : Option Str)
    (s : Nat → Nat) (T : Nat) (kws pool : List Str) (tg F k : Nat)
    (ci : Nat → IterChoices) :
    (if COND then (⟨[], X⟩ : GenResult)
     else ⟨(pyShuffle s (genLoop kws pool tg ci F k []).1).take T, Y⟩).regular_words.Nodup := by
  split
  · simp
  · exact take_shuffle_nodup s T _ (genLoop_nodup kws pool tg ci F k [] List.nodup_nil)

/-- C2 (amended): `regular_words` never contains duplicate strings (it is
accumulated as a set and only shuffled and truncated afterwards); but an
element of `regular_words` MAY equal `wildcard_word` — the source detects the
collision and deliberately ignores it (`pass`), see the counterexample. -/
theorem C2_nodup (keywords : List Str) (n : Int) (relatedPool : List Str)
    (c : GenChoices) :
    (generate_new_words keywords n relatedPool c).regular_words.Nodup := by
  rw [generate_new_words]
  split
  · simp
  · dsimp only
    exact nodup_result_ite _ _ _ _ _ _ _ _ _ 0 _

/-! Claim C3. -/

theorem pyStrip_subset (s : Str) : pyStrip s ⊆ s := by
  intro x hx
  unfold pyStrip at hx
  rw [List.mem_reverse] at hx
  have h1 := (List.dropWhile_sublist Char.isWhitespace).subset hx
  rw [List.mem_reverse] at h1
  exact (List.dropWhile_sublist Char.isWhitespace).subset h1

theorem lstripDash_subset (s : Str) : lstripDash s ⊆ s :=
  (List.dropWhile_sublist _).subset

theorem heuristic_subset (word : Str) : _get_last_syllable_heuristic word ⊆ word := by
  simp only [_get_last_syllable_heuristic]
  repeat' split
  all_goals first
    | exact fun x hx => hx
    | exact List.drop_subset _ word

theorem lowerInvP_singleton {ch : Char} (h : ch.toLower = ch) : LowerInvP [ch] := by
  intro d hd
  rw [List.mem_singleton.mp hd]
  exact h

theorem blend_words_lower (w1 w2 : Str) (c : BlendChoices) :
    ∀ b ∈ blend_words w1 w2 c, LowerInvP b := by
  intro b hb
  simp only [blend_words] at hb
  have hc := mem_of_mem_setOfList
    (List.mem_of_mem_filter (List.mem_of_mem_filter (List.mem_of_mem_filter hb)))
  have L1 := lowerInvP_pyLower w1
  have L2 := lowerInvP_pyLower w2
  rcases List.mem_append.mp hc with h | h
  · rcases List.mem_append.mp h with h | h
    · split at h
      · rw [List.mem_singleton.mp h]
        exact lowerInvP_append L1 (lowerInvP_of_subset L2 (List.drop_subset _ _))
      · cases h
    · split at h
      · rw [List.mem_singleton.mp h]
        exact lowerInvP_append L2 (lowerInvP_of_subset L1 (List.drop_subset _ _))
      · cases h
  · split at h
    · simp only [List.mem_cons, List.mem_singleton, List.not_mem_nil, or_false] at h
      rcases h with rfl | rfl
      · exact lowerInvP_append (lowerInvP_of_subset L1 (List.take_subset _ _))
          (lowerInvP_of_subset L2 (List.drop_subset _ _))
      · exact lowerInvP_append (lowerInvP_of_subset L2 (List.take_subset _ _))
          (lowerInvP_of_subset L1 (List.drop_subset _ _))
    · cases h

theorem add_affixes_lower (w : Str) (c : AffixChoices) :
    ∀ x ∈ add_affixes w c, LowerInvP x := by
  intro x hx
  simp only [add_affixes] at hx
  have hc := mem_of_mem_setOfList (List.mem_of_mem_filter (List.mem_of_mem_filter hx))
  have LW := lowerInvP_pyLower w
  have Lplay : ∀ pa ∈ PLAYFUL_AFFIXES, LowerInvP pa := by decide
  have LcomP : ∀ p ∈ COMMON_PREFIXES, LowerInvP p := by decide
  have LcomS : ∀ p ∈ COMMON_SUFFIXES, LowerInvP p := by decide
  have LCons : LowerInvP CONSONANTS := by decide
  rcases List.mem_append.mp hc with h | h
  · split at h
    · split at h
      · next hpp =>
          rw [List.mem_singleton.mp h]
          exact lowerInvP_append
            (Lplay _ (List.mem_of_mem_filter (pickD_mem _ _ hpp.2))) LW
      · rw [List.mem_singleton.mp h]
        exact lowerInvP_append (LcomP _ (pickD_mem _ _ (by decide))) LW
    · cases h
  · split at h
    · split at h
      · next hps =>
          have Lc : LowerInvP (lstripDash (pickD c.sufPlayfulIdx
              (PLAYFUL_AFFIXES.filter (fun pa => startsDash pa)) [])) :=
            lowerInvP_of_subset
              (Lplay _ (List.mem_of_mem_filter (pickD_mem _ _ hps.2)))
              (lstripDash_subset _)
          split at h
          · rw [List.mem_singleton.mp h]
            split
            · exact lowerInvP_append
                (lowerInvP_of_subset LW (List.dropLast_subset _)) Lc
            · split
              · next hdb =>
                  exact lowerInvP_append
                    (lowerInvP_append LW (lowerInvP_singleton (LCons _ hdb.2.1))) Lc
              · exact lowerInvP_append LW Lc
          · cases h
      · have Lc : LowerInvP (pickD c.sufCommonIdx COMMON_SUFFIXES []) :=
          LcomS _ (pickD_mem _ _ (by decide))
        split at h
        · rw [List.mem_singleton.mp h]
          split
          · exact lowerInvP_append
              (lowerInvP_of_subset LW (List.dropLast_subset _)) Lc
          · split
            · next hdb =>
                exact lowerInvP_append
                  (lowerInvP_append LW (lowerInvP_singleton (LCons _ hdb.2.1))) Lc
            · exact lowerInvP_append LW Lc
        · cases h
    · cases h

theorem clip_word_lower (w : Str) (b : Bool) :
    ∀ x ∈ clip_word w b, LowerInvP x := by
  intro x hx
  simp only [clip_word] at hx
  repeat' split at hx
  all_goals first
    | exact absurd hx (List.not_mem_nil _)
    | (rw [List.mem_singleton.mp hx]
       exact lowerInvP_of_subset (lowerInvP_pyLower w) (List.take_subset _ _))

theorem modify_lower (w : Str) (c : ModChoices) :
    ∀ x ∈ modify_word_phonetically w c, LowerInvP x := by
  intro x hx
  obtain ⟨j, ch, _, rfl, _, hclass⟩ := modify_mem_spec w c x hx
  have hch : ch.toLower = ch := by
    have LV : LowerInvP VOWELS := by decide
    have LC : LowerInvP CONSONANTS := by decide
    rcases hclass with ⟨h1, _⟩ | ⟨h1, _⟩
    · exact LV _ h1
    · exact LC _ h1
  intro d hd
  rcases List.mem_or_eq_of_mem_set hd with hd | rfl
  · exact lowerInvP_pyLower w d hd
  · exact hch

theorem reduplicate_word_lower (w : Str) (mode : RedupMode) (r : Nat) :
    ∀ x ∈ reduplicate_word w mode r, LowerInvP x := by
  intro x hx
  have LW := lowerInvP_pyLower w
  rcases mode with _ | _ | _ <;>
    (simp only [reduplicate_word] at hx
     split at hx
     · cases hx
     · replace hx := List.mem_of_mem_filter hx
       repeat' split at hx
       all_goals first
         | exact absurd hx (List.not_mem_nil _)
         | (rw [List.mem_singleton.mp hx]
            first
              | exact lowerInvP_append LW
                  (lowerInvP_of_subset LW (heuristic_subset (pyLower w)))
              | exact lowerInvP_append LW LW
              | (refine lowerInvP_append LW (lowerInvP_singleton ?_)
                 first
                   | exact (by decide : LowerInvP VOWELS) _
                       (List.mem_of_mem_filter (pickD_mem _ _ (by assumption)))
                   | exact (by decide : LowerInvP CONSONANTS) _
                       (List.mem_of_mem_filter (pickD_mem _ _ (by assumption)))
                   | exact (by decide : LowerInvP ASCII_LOWERCASE) _
                       (pickD_mem _ _ (by decide)))))

theorem ingStep_lower (wl : Str) (hwl : LowerInvP wl) :
    ∀ x ∈ ingStep wl, LowerInvP x := by
  intro x hx
  simp only [ingStep] at hx
  split at hx
  · split at hx
    · split at hx
      · rw [List.mem_singleton.mp hx]
        exact lowerInvP_append (lowerInvP_of_subset hwl (List.take_subset _ _))
          (by decide)
      · cases hx
    · cases hx
  · cases hx

theorem phonetic_respell_lower (w : Str) :
    ∀ x ∈ phonetic_respell w, LowerInvP x := by
  intro x hx
  simp only [phonetic_respell] at hx
  have hwl := lowerInvP_pyLower w
  split at hx
  · next r heq =>
      split at hx
      · rw [List.mem_singleton.mp hx]
        have hr : r ∈ PHONETIC_RESPELLING_RULES := List.mem_of_find?_eq_some heq
        have : ∀ q ∈ PHONETIC_RESPELLING_RULES, LowerInvP q.2 := by decide
        exact this r hr
      · exact ingStep_lower _ hwl x hx
  · exact ingStep_lower _ hwl x hx

theorem blendFallback_lower (keywords pool : List Str) (base1 : Str)
    (c : IterChoices) : ∀ x ∈ blendFallback keywords pool base1 c, LowerInvP x := by
  intro x hx
  simp only [blendFallback] at hx
  split at hx
  · split at hx
    · cases hx
    · split at hx
      · exact blend_words_lower _ _ _ x hx
      · cases hx
  · split at hx
    · split at hx
      · cases hx
      · split at hx
        · exact blend_words_lower _ _ _ x hx
        · cases hx
    · cases hx

theorem iterPotentials_lower (keywords pool : List Str) (c : IterChoices) :
    ∀ x ∈ iterPotentials keywords pool c, LowerInvP x := by
  intro x hx
  simp only [iterPotentials] at hx
  rcases hS : pickD c.stratIdx STRATEGIES Strategy.blend with _ | _ | _ | _ | _ | _ <;>
    rw [hS] at hx <;> dsimp only at hx
  · split at hx
    · split at hx
      · exact blend_words_lower _ _ _ x hx
      · exact blendFallback_lower _ _ _ _ x hx
    · split at hx
      · exact blend_words_lower _ _ _ x hx
      · exact blendFallback_lower _ _ _ _ x hx
  · exact add_affixes_lower _ _ x hx
  · exact clip_word_lower _ _ x hx
  · exact modify_lower _ _ x hx
  · exact reduplicate_word_lower _ _ _ x hx
  · exact phonetic_respell_lower _ x hx

theorem absorb_mem (kws : List Str) (target : Nat) :
    ∀ pots acc out, out ∈ absorb kws target acc pots →
      out ∈ acc ∨ (out ∈ pots ∧ out ∉ kws) := by
  intro pots
  induction pots with
  | nil => intro acc out h; exact Or.inl h
  | cons w ws ih =>
    intro acc out h
    rw [absorb] at h
    split at h
    · next hcond =>
        dsimp only at h
        split at h
        · rcases mem_addSet h with h' | h'
          · exact Or.inl h'
          · rw [h']
            exact Or.inr ⟨List.mem_cons_self w ws, hcond.2.1⟩
        · rcases ih _ out h with h' | ⟨hm, hk⟩
          · rcases mem_addSet h' with h'' | h''
            · exact Or.inl h''
            · rw [h'']
              exact Or.inr ⟨List.mem_cons_self w ws, hcond.2.1⟩
          · exact Or.inr ⟨List.mem_cons_of_mem w hm, hk⟩
    · rcases ih _ out h with h' | ⟨hm, hk⟩
      · exact Or.inl h'
      · exact Or.inr ⟨List.mem_cons_of_mem w hm, hk⟩

theorem genLoop_mem (keywords pool : List Str) (target : Nat)
    (cs : Nat → IterChoices) :
    ∀ fuel k acc out, out ∈ (genLoop keywords pool target cs fuel k acc).1 →
      out ∈ acc ∨ (out ∉ keywords ∧ LowerInvP out) := by
  intro fuel
  induction fuel with
  | zero => intro k acc out h; exact Or.inl h
  | succ f ih =>
    intro k acc out h
    rw [genLoop] at h
    split at h
    · exact Or.inl h
    · split at h
      · exact Or.inl h
      · dsimp only at h
        rcases ih (k + 1) _ out h with h' | h'
        · rcases absorb_mem keywords target _ acc out h' with h'' | ⟨hm, hk⟩
          · exact Or.inl h''
          · exact Or.inr ⟨hk, iterPotentials_lower keywords pool (cs k) out hm⟩
        · exact Or.inr h'

/-- C3 counterexample: with the raw (unnormalized) keyword `"Cat"`, related
pool `["catty"]` and count 2, a clip of `"catty"` yields the regular word
`"cat"`, which equals the normalized keyword `"Cat".lower().strip()`: the
quality filter at word_generator.py:590 compares against the RAW keyword
list only. -/
theorem C3_cex :
    str "cat" ∈ (generate_new_words [str "Cat"] 2 [str "catty"] catChoices).regular_words ∧
    normalize (str "Cat") = str "cat" ∧
    str "cat" ≠ str "Cat" := by
  decide

/-- C3 (amended): every string in the returned `regular_words` is lowercase
and differs from every RAW input keyword; it may, however, equal a NORMALIZED
keyword when the raw keyword is not already in normalized form (mixed case or
surrounding whitespace), because the filter compares against the raw keyword
list. -/
theorem mem_result_ite {COND : Prop} [Decidable COND] {X Y : Option Str}
    {s : Nat → Nat} {T : Nat} {kws pool : List Str} {tg F k : Nat}
    {ci : Nat → IterChoices} {x : Str}
    (hx : x ∈ (if COND then (⟨[], X⟩ : GenResult)
      else ⟨(pyShuffle s (genLoop kws pool tg ci F k []).1).take T, Y⟩).regular_words) :
    x ∉ kws ∧ LowerInvP x := by
  split at hx
  · cases hx
  · have h1 := List.take_subset _ _ hx
    have h2 := (pyShuffle_perm _ _).mem_iff.mp h1
    rcases genLoop_mem kws pool tg ci F k [] x h2 with h3 | h3
    · cases h3
    · exact h3

theorem C3_clean (keywords : List Str) (n : Int) (relatedPool : List Str)
    (c : GenChoices) (x : Str)
    (hx : x ∈ (generate_new_words keywords n relatedPool c).regular_words) :
    pyLower x = x ∧ x ∉ keywords := by
  rw [generate_new_words] at hx
  split at hx
  · cases hx
  · dsimp only at hx
    obtain ⟨hk, hlow⟩ := mem_result_ite hx
    exact ⟨pyLower_eq_self_of_lowerInvP hlow, hk⟩

/-- C3 witness: the amended statement at the counterexample's run, where the
regular word `"cat"` is produced. -/
theorem C3_clean_witness :
    pyLower (str "cat") = str "cat" ∧ str "cat" ∉ [str "Cat"] :=
  C3_clean [str "Cat"] 2 [str "catty"] catChoices (str "cat") (by decide)

end WordGenerator
